import Mathlib

/-!
Shallow embedding of the FFmpeg video filter `vf_static_mask.c` (the static-region
detector/masker) and verification of the frozen claims about it.

Modelling conventions:
* A planar frame is three sample planes (luma `Y`, chroma `U`, `V`), each a total
  function from (row, column) to a byte value (`Fin 256`, matching the `uint8_t`
  sample type).  The byte stride (`linesize`) only serves to linearise 2-d
  indexing in C; addressing planes directly by (row, column) is the same map.
* `uint64_t` arithmetic is `ℕ` with explicit reduction `% 2 ^ 64` where the
  source accumulates into a `uint64_t`.
* The C expression `abs(sum - prev)` subtracts in `uint64_t`, implicitly
  converts the result to the 32-bit `int` expected by `abs` (two's-complement
  reinterpretation of the low 32 bits), and takes the `int` absolute value
  (negation wrapping at `INT_MIN`).  All three steps are modelled explicitly.
* The `double` threshold is modelled as an exact rational; conversion of the
  integer quotient to `double` is exact for all magnitudes reachable here
  (they are far below 2 ^ 53), so the C comparison is the exact comparison.
* `size = 0` makes the C loops diverge (`y += 0`); the embedding is only used
  for `size ≥ 1`, which every claim about frame processing assumes.
-/

namespace StaticMask

/-- A planar frame: dimensions plus the three sample planes.  `Y j i` is the
luma sample at row `j`, column `i`; `U`/`V` are the chroma planes, which the
filter addresses at half-resolution coordinates. -/
structure Frame where
  width : ℕ
  height : ℕ
  Y : ℕ → ℕ → Fin 256
  U : ℕ → ℕ → Fin 256
  V : ℕ → ℕ → Fin 256

/-- Point update of a plane: write value `v` at row `j`, column `i`. -/
def upd (p : ℕ → ℕ → Fin 256) (j i : ℕ) (v : Fin 256) : ℕ → ℕ → Fin 256 :=
  fun j' i' => if j' = j ∧ i' = i then v else p j' i'

/-- Write the single value `v` at every coordinate in `cs` (in order). -/
def writeAll (p : ℕ → ℕ → Fin 256) (v : Fin 256) (cs : List (ℕ × ℕ)) :
    ℕ → ℕ → Fin 256 :=
  cs.foldl (fun acc ji => upd acc ji.1 ji.2 v) p

/-- The luma coordinates `(j, i)` visited for the block with origin `(x, y)`:
exactly the clipped double loop `for (j = y; j < y + size && j < height; ++j)
for (i = x; i < x + size && i < width; ++i)` of the source. -/
def blockCoords (w h x y s : ℕ) : List (ℕ × ℕ) :=
  (List.range (min (y + s) h - y)).flatMap fun dj =>
    (List.range (min (x + s) w - x)).map fun di => (y + dj, x + di)

/-- The half-resolution chroma coordinates `(j/2, i/2)` addressed for the block
with origin `(x, y)` (one entry per covering luma pixel, as in the source). -/
def halfCoords (w h x y s : ℕ) : List (ℕ × ℕ) :=
  (blockCoords w h x y s).map fun ji => (ji.1 / 2, ji.2 / 2)

/-- The aggregate the source accumulates for one block: for every luma pixel of
the clipped block, the luma sample plus the two chroma samples addressed at
half-resolution coordinates. -/
def blockSumRaw (fr : Frame) (x y s : ℕ) : ℕ :=
  ((blockCoords fr.width fr.height x y s).map fun ji =>
    (fr.Y ji.1 ji.2).val + (fr.U (ji.1 / 2) (ji.2 / 2)).val
      + (fr.V (ji.1 / 2) (ji.2 / 2)).val).sum

/-- The block aggregate as the source's `uint64_t` accumulator holds it. -/
def blockSum (fr : Frame) (x y s : ℕ) : ℕ := blockSumRaw fr x y s % 2 ^ 64

/-- Overwrite every sample of the block with the neutral values: luma 16 and
both chroma 128, exactly over the clipped extent, chroma addressed at
half-resolution coordinates (lines 86-92 of the source). -/
def maskBlock (fr : Frame) (x y s : ℕ) : Frame :=
  { fr with
    Y := writeAll fr.Y 16 (blockCoords fr.width fr.height x y s)
    U := writeAll fr.U 128 (halfCoords fr.width fr.height x y s)
    V := writeAll fr.V 128 (halfCoords fr.width fr.height x y s) }

/-- `(a - b)` in `uint64_t` arithmetic. -/
def u64sub (a b : ℕ) : ℕ := (a % 2 ^ 64 + (2 ^ 64 - b % 2 ^ 64)) % 2 ^ 64

/-- Implicit conversion of an unsigned value to the 32-bit `int` parameter of
`abs`: two's-complement reinterpretation of the low 32 bits. -/
def int32ofNat (n : ℕ) : ℤ :=
  if n % 2 ^ 32 < 2 ^ 31 then (n % 2 ^ 32 : ℕ) else (n % 2 ^ 32 : ℕ) - 2 ^ 32

/-- C's `abs` on `int`: negation of a negative argument, wrapping at 32 bits
(`abs(INT_MIN)` wraps back to `INT_MIN`). -/
def cIntAbs (x : ℤ) : ℤ := if x < 0 then int32ofNat (-x).toNat else x

/-- The normalised delta of line 85:
`abs(sum - prev) / (size * size / 10)`, with `int` division semantics.
The divisor is the nominal `size * size / 10`, independent of the block. -/
def cNorm (size sum prev : ℕ) : ℤ :=
  Int.tdiv (cIntAbs (int32ofNat (u64sub sum prev))) ((size * size / 10 : ℕ) : ℤ)

/-- The comparison of line 85: the (exactly converted) integer quotient is
compared against the `double` threshold. -/
def staticDecision (size : ℕ) (thr : ℚ) (sum prev : ℕ) : Bool :=
  decide ((cNorm size sum prev : ℚ) < thr)

/-- The filter's private state (`static_maskContext`). -/
structure MaskState where
  size : ℕ
  threshold : ℚ
  frame_back : ℕ
  prev_sums : List (List ℕ)
  prev_width : ℕ
  prev_height : ℕ
  frame_count : ℕ

/-- `config_input`: grid dimensions by rounded-up division, `frame_back`
history slots each a zero-filled array of `prev_width * prev_height`
`uint64_t` entries, and the frame counter reset to 0. -/
def config_input (size : ℕ) (thr : ℚ) (frame_back w h : ℕ) : MaskState :=
  { size := size
    threshold := thr
    frame_back := frame_back
    prev_sums := List.replicate frame_back
      (List.replicate ((w + size - 1) / size * ((h + size - 1) / size)) 0)
    prev_width := (w + size - 1) / size
    prev_height := (h + size - 1) / size
    frame_count := 0 }

/-- The block origins `y = 0, s, 2s, ...` visited by `for (y = 0; y < len;
y += s)`, for `s ≥ 1`. -/
def origins (len s : ℕ) : List ℕ := (List.range ((len + s - 1) / s)).map (· * s)

/-- All block origins `(x, y)` in visit order: `y` outer, `x` inner, so the
position of a block in this list is the source's `range_counter` for it. -/
def blockList (w h s : ℕ) : List (ℕ × ℕ) :=
  (origins h s).flatMap fun y => (origins w s).map fun x => (x, y)

/-- The per-frame block loop (lines 72-99).  Arguments: remaining block
origins, current frame, the ring slot being read and written
(`prev_sums[buffer_index]`), and `range_counter`.  Returns the mutated frame,
the mutated slot, and, for the specification, the list of
(computed sum, value read for comparison) pairs in block order. -/
def runBlocks (s : ℕ) (thr : ℚ) :
    List (ℕ × ℕ) → Frame → List ℕ → ℕ → Frame × List ℕ × List (ℕ × ℕ)
  | [], fr, slot, _ => (fr, slot, [])
  | (x, y) :: rest, fr, slot, rc =>
    let sum := blockSum fr x y s
    let prev := slot.getD rc 0
    let fr2 := if staticDecision s thr sum prev then maskBlock fr x y s else fr
    let r := runBlocks s thr rest fr2 (slot.set rc sum) (rc + 1)
    (r.1, r.2.1, (sum, prev) :: r.2.2)

/-- One frame's block loop run from the state's current ring slot
(`buffer_index = frame_count % frame_back`) and `range_counter = 0`. -/
def blockRun (st : MaskState) (fr : Frame) : Frame × List ℕ × List (ℕ × ℕ) :=
  runBlocks st.size st.threshold (blockList fr.width fr.height st.size) fr
    (st.prev_sums.getD (st.frame_count % st.frame_back) []) 0

/-- `filter_frame`: process every block, store the mutated ring slot back, and
increment the frame counter.  Returns the new state and the mutated frame. -/
def filter_frame (st : MaskState) (fr : Frame) : MaskState × Frame :=
  ({ st with
      prev_sums := st.prev_sums.set (st.frame_count % st.frame_back)
        (blockRun st fr).2.1
      frame_count := st.frame_count + 1 },
    (blockRun st fr).1)

/-- The (sum, value read) pair recorded for each block of one frame. -/
def frameTrace (st : MaskState) (fr : Frame) : List (ℕ × ℕ) :=
  (blockRun st fr).2.2

/-- The mask decision taken for block number `k` of one frame. -/
def decisionAt (st : MaskState) (fr : Frame) (k : ℕ) : Bool :=
  staticDecision st.size st.threshold ((frameTrace st fr).getD k (0, 0)).1
    ((frameTrace st fr).getD k (0, 0)).2

/-- The frame as returned downstream by `filter_frame`. -/
def outFrame (st : MaskState) (fr : Frame) : Frame := (filter_frame st fr).2

/-- The state after `n` calls of `filter_frame` on the frame stream `fs`. -/
def stateAt (st0 : MaskState) (fs : ℕ → Frame) : ℕ → MaskState
  | 0 => st0
  | n + 1 => (filter_frame (stateAt st0 fs n) (fs n)).1

/-- The state before frame `n` in a run started from a fresh configuration. -/
def runState (s : ℕ) (thr : ℚ) (K w h : ℕ) (fs : ℕ → Frame) (n : ℕ) :
    MaskState :=
  stateAt (config_input s thr K w h) fs n

/-- The aggregate sum recorded for grid cell `c` while processing frame `n`. -/
def recordedSum (s : ℕ) (thr : ℚ) (K w h : ℕ) (fs : ℕ → Frame) (n c : ℕ) : ℕ :=
  ((frameTrace (runState s thr K w h fs n) (fs n)).getD c (0, 0)).1

/-- The value the comparator reads for grid cell `c` while processing
frame `n`. -/
def readValue (s : ℕ) (thr : ℚ) (K w h : ℕ) (fs : ℕ → Frame) (n c : ℕ) : ℕ :=
  ((frameTrace (runState s thr K w h fs n) (fs n)).getD c (0, 0)).2

/-- Memory model for `uninit` (lines 128-136).  `prev_sums_null` is the nullity
of the stored `prev_sums` pointer, `allocated` whether the buffers it points to
are currently allocated, and `double_free` records whether some `av_free` ever
targeted memory that was no longer allocated. -/
structure CtxMem where
  prev_sums_null : Bool
  allocated : Bool
  double_free : Bool
  deriving DecidableEq

/-- `uninit`: if the pointer is non-null, free every slot and the slot array.
The pointer itself is left in place (the source has no `av_freep`), so the
nullity is unchanged; freeing unallocated memory raises `double_free`. -/
def uninit (c : CtxMem) : CtxMem :=
  if c.prev_sums_null then c
  else { prev_sums_null := false
         allocated := false
         double_free := c.double_free || !c.allocated }

/-- A never-initialised context: the framework zero-fills the private struct,
so the pointer is NULL and nothing is allocated. -/
def freshCtx : CtxMem :=
  { prev_sums_null := true, allocated := false, double_free := false }

/-- The context right after a successful `config_input`: pointer set, buffers
allocated. -/
def configuredCtx : CtxMem :=
  { prev_sums_null := false, allocated := true, double_free := false }

/-- Modelled from the spec: the option system's configuration-time range check
(the AVOption machinery of libavutil/opt.c is not part of this repository
snapshot; the spec states out-of-range values are "rejected at configuration
time before any processing begins").  The bounds are the ones declared for
"size" in the `static_mask_options` table of the source: minimum 0,
maximum 600. -/
def size_accepted (v : ℤ) : Bool := decide (0 ≤ v) && decide (v ≤ 600)

/-! ### Helper lemmas: lists and planes -/

theorem getD_set {α : Type} (l : List α) (m c : ℕ) (v d : α) :
    (l.set m v).getD c d = if m = c ∧ m < l.length then v else l.getD c d := by
  induction l generalizing m c with
  | nil => simp
  | cons a l ih =>
    cases m with
    | zero =>
      cases c with
      | zero => simp
      | succ c => simp
    | succ m =>
      cases c with
      | zero => simp
      | succ c =>
        rw [List.set_cons_succ, List.getD_cons_succ, List.getD_cons_succ, ih m c]
        by_cases hmc : m = c ∧ m < l.length
        · have h2 : m + 1 = c + 1 ∧ m + 1 < (a :: l).length := by
            simp only [List.length_cons]
            omega
          rw [if_pos hmc, if_pos h2]
        · have h2 : ¬(m + 1 = c + 1 ∧ m + 1 < (a :: l).length) := by
            simp only [List.length_cons]
            omega
          rw [if_neg hmc, if_neg h2]

theorem writeAll_eq (p : ℕ → ℕ → Fin 256) (v : Fin 256) (cs : List (ℕ × ℕ))
    (q r : ℕ) : writeAll p v cs q r = if (q, r) ∈ cs then v else p q r := by
  induction cs generalizing p with
  | nil => simp [writeAll]
  | cons c cs ih =>
    simp only [writeAll, List.foldl_cons] at *
    rw [ih]
    by_cases hm : (q, r) ∈ cs
    · simp [hm]
    · by_cases he : (q, r) = c
      · subst he
        simp [hm, upd]
      · have : ¬(q = c.1 ∧ r = c.2) := by
          intro hqr
          exact he (Prod.ext hqr.1 hqr.2)
        simp [hm, he, upd, this]

theorem mem_blockCoords (w h x y s j i : ℕ) :
    (j, i) ∈ blockCoords w h x y s ↔
      y ≤ j ∧ j < min (y + s) h ∧ x ≤ i ∧ i < min (x + s) w := by
  simp only [blockCoords, List.mem_flatMap, List.mem_map, List.mem_range,
    Prod.mk.injEq]
  constructor
  · rintro ⟨dj, hdj, di, hdi, hj, hi⟩
    omega
  · rintro ⟨h1, h2, h3, h4⟩
    exact ⟨j - y, by omega, i - x, by omega, by omega, by omega⟩

theorem sum_map_const {α : Type} (l : List α) (c : ℕ) :
    (l.map fun _ => c).sum = l.length * c := by
  induction l with
  | nil => simp
  | cons a l ih => simp [ih, Nat.succ_mul, Nat.add_comm]

theorem length_blockCoords (w h x y s : ℕ) :
    (blockCoords w h x y s).length =
      (min (y + s) h - y) * (min (x + s) w - x) := by
  rw [blockCoords, List.length_flatMap]
  have h : List.map
      (List.length ∘ fun dj =>
        (List.range (min (x + s) w - x)).map fun di => (y + dj, x + di))
      (List.range (min (y + s) h - y)) =
      (List.range (min (y + s) h - y)).map fun _ => (min (x + s) w - x) := by
    apply List.map_congr_left
    intro a _
    simp
  rw [h, sum_map_const, List.length_range]

theorem maskBlock_width (fr : Frame) (x y s : ℕ) :
    (maskBlock fr x y s).width = fr.width := rfl

theorem maskBlock_height (fr : Frame) (x y s : ℕ) :
    (maskBlock fr x y s).height = fr.height := rfl

theorem maskBlock_Y (fr : Frame) (x y s j i : ℕ) :
    (maskBlock fr x y s).Y j i =
      if (j, i) ∈ blockCoords fr.width fr.height x y s then 16 else fr.Y j i :=
  writeAll_eq ..

theorem maskBlock_U (fr : Frame) (x y s p q : ℕ) :
    (maskBlock fr x y s).U p q =
      if (p, q) ∈ halfCoords fr.width fr.height x y s then 128 else fr.U p q :=
  writeAll_eq ..

theorem maskBlock_V (fr : Frame) (x y s p q : ℕ) :
    (maskBlock fr x y s).V p q =
      if (p, q) ∈ halfCoords fr.width fr.height x y s then 128 else fr.V p q :=
  writeAll_eq ..

/-! ### Helper lemmas: the block loop -/

theorem runBlocks_nil (s : ℕ) (thr : ℚ) (fr : Frame) (slot : List ℕ) (rc : ℕ) :
    runBlocks s thr [] fr slot rc = (fr, slot, []) := rfl

theorem runBlocks_cons (s : ℕ) (thr : ℚ) (x y : ℕ) (rest : List (ℕ × ℕ))
    (fr : Frame) (slot : List ℕ) (rc : ℕ) :
    runBlocks s thr ((x, y) :: rest) fr slot rc =
      ((runBlocks s thr rest
          (if staticDecision s thr (blockSum fr x y s) (slot.getD rc 0)
            then maskBlock fr x y s else fr)
          (slot.set rc (blockSum fr x y s)) (rc + 1)).1,
        (runBlocks s thr rest
          (if staticDecision s thr (blockSum fr x y s) (slot.getD rc 0)
            then maskBlock fr x y s else fr)
          (slot.set rc (blockSum fr x y s)) (rc + 1)).2.1,
        (blockSum fr x y s, slot.getD rc 0) ::
          (runBlocks s thr rest
            (if staticDecision s thr (blockSum fr x y s) (slot.getD rc 0)
              then maskBlock fr x y s else fr)
            (slot.set rc (blockSum fr x y s)) (rc + 1)).2.2) := rfl

theorem runBlocks_width (s : ℕ) (thr : ℚ) (L : List (ℕ × ℕ)) (fr : Frame)
    (slot : List ℕ) (rc : ℕ) :
    (runBlocks s thr L fr slot rc).1.width = fr.width := by
  induction L generalizing fr slot rc with
  | nil => rfl
  | cons p rest ih =>
    obtain ⟨x, y⟩ := p
    rw [runBlocks_cons]
    by_cases hd : staticDecision s thr (blockSum fr x y s) (slot.getD rc 0)
    · simp only [hd, if_true]
      rw [ih]
      rfl
    · simp only [hd, Bool.false_eq_true, if_false]
      rw [ih]

theorem runBlocks_height (s : ℕ) (thr : ℚ) (L : List (ℕ × ℕ)) (fr : Frame)
    (slot : List ℕ) (rc : ℕ) :
    (runBlocks s thr L fr slot rc).1.height = fr.height := by
  induction L generalizing fr slot rc with
  | nil => rfl
  | cons p rest ih =>
    obtain ⟨x, y⟩ := p
    rw [runBlocks_cons]
    by_cases hd : staticDecision s thr (blockSum fr x y s) (slot.getD rc 0)
    · simp only [hd, if_true]
      rw [ih]
      rfl
    · simp only [hd, Bool.false_eq_true, if_false]
      rw [ih]

theorem runBlocks_slot_length (s : ℕ) (thr : ℚ) (L : List (ℕ × ℕ)) (fr : Frame)
    (slot : List ℕ) (rc : ℕ) :
    (runBlocks s thr L fr slot rc).2.1.length = slot.length := by
  induction L generalizing fr slot rc with
  | nil => rfl
  | cons p rest ih =>
    obtain ⟨x, y⟩ := p
    rw [runBlocks_cons]
    simp only []
    rw [ih, List.length_set]

theorem runBlocks_trace_length (s : ℕ) (thr : ℚ) (L : List (ℕ × ℕ)) (fr : Frame)
    (slot : List ℕ) (rc : ℕ) :
    (runBlocks s thr L fr slot rc).2.2.length = L.length := by
  induction L generalizing fr slot rc with
  | nil => rfl
  | cons p rest ih =>
    obtain ⟨x, y⟩ := p
    rw [runBlocks_cons]
    simp only [List.length_cons]
    rw [ih]

theorem runBlocks_slot_lower (s : ℕ) (thr : ℚ) (L : List (ℕ × ℕ)) (fr : Frame)
    (slot : List ℕ) (rc c : ℕ) (hc : c < rc) :
    (runBlocks s thr L fr slot rc).2.1.getD c 0 = slot.getD c 0 := by
  induction L generalizing fr slot rc with
  | nil => rfl
  | cons p rest ih =>
    obtain ⟨x, y⟩ := p
    rw [runBlocks_cons]
    simp only []
    rw [ih _ _ _ (by omega), getD_set]
    have : ¬(rc = c ∧ rc < slot.length) := by omega
    rw [if_neg this]

theorem trace_read (s : ℕ) (thr : ℚ) (L : List (ℕ × ℕ)) (fr : Frame)
    (slot : List ℕ) (rc k : ℕ) (hk : k < L.length) :
    ((runBlocks s thr L fr slot rc).2.2.getD k (0, 0)).2 =
      slot.getD (rc + k) 0 := by
  induction L generalizing fr slot rc k with
  | nil => simp at hk
  | cons p rest ih =>
    obtain ⟨x, y⟩ := p
    rw [runBlocks_cons]
    cases k with
    | zero => simp
    | succ k =>
      simp only [List.getD_cons_succ]
      rw [ih _ _ _ _ (by simpa using hk), getD_set]
      have : ¬(rc = rc + 1 + k ∧ rc < slot.length) := by omega
      rw [if_neg this]
      congr 1
      omega

theorem trace_store (s : ℕ) (thr : ℚ) (L : List (ℕ × ℕ)) (fr : Frame)
    (slot : List ℕ) (rc k : ℕ) (hk : k < L.length) (hlen : rc + k < slot.length) :
    (runBlocks s thr L fr slot rc).2.1.getD (rc + k) 0 =
      ((runBlocks s thr L fr slot rc).2.2.getD k (0, 0)).1 := by
  induction L generalizing fr slot rc k with
  | nil => simp at hk
  | cons p rest ih =>
    obtain ⟨x, y⟩ := p
    rw [runBlocks_cons]
    cases k with
    | zero =>
      simp only [List.getD_cons_zero, Nat.add_zero]
      rw [runBlocks_slot_lower _ _ _ _ _ _ _ (by omega), getD_set]
      have : rc = rc ∧ rc < slot.length := ⟨rfl, by omega⟩
      rw [if_pos this]
    | succ k =>
      simp only [List.getD_cons_succ]
      have h1 : rc + (k + 1) = rc + 1 + k := by omega
      rw [h1, ih _ _ _ _ (by simpa using hk)
        (by rw [List.length_set]; omega)]

/-! ### Helper lemmas: multi-frame runs -/

theorem filter_frame_size (st : MaskState) (fr : Frame) :
    (filter_frame st fr).1.size = st.size := rfl

theorem filter_frame_threshold (st : MaskState) (fr : Frame) :
    (filter_frame st fr).1.threshold = st.threshold := rfl

theorem filter_frame_frame_back (st : MaskState) (fr : Frame) :
    (filter_frame st fr).1.frame_back = st.frame_back := rfl

theorem filter_frame_frame_count (st : MaskState) (fr : Frame) :
    (filter_frame st fr).1.frame_count = st.frame_count + 1 := rfl

theorem filter_frame_prev_sums (st : MaskState) (fr : Frame) :
    (filter_frame st fr).1.prev_sums =
      st.prev_sums.set (st.frame_count % st.frame_back) (blockRun st fr).2.1 :=
  rfl

theorem stateAt_size (st0 : MaskState) (fs : ℕ → Frame) (n : ℕ) :
    (stateAt st0 fs n).size = st0.size := by
  induction n with
  | zero => rfl
  | succ n ih => rw [stateAt, filter_frame_size, ih]

theorem stateAt_threshold (st0 : MaskState) (fs : ℕ → Frame) (n : ℕ) :
    (stateAt st0 fs n).threshold = st0.threshold := by
  induction n with
  | zero => rfl
  | succ n ih => rw [stateAt, filter_frame_threshold, ih]

theorem stateAt_frame_back (st0 : MaskState) (fs : ℕ → Frame) (n : ℕ) :
    (stateAt st0 fs n).frame_back = st0.frame_back := by
  induction n with
  | zero => rfl
  | succ n ih => rw [stateAt, filter_frame_frame_back, ih]

theorem stateAt_frame_count (st0 : MaskState) (fs : ℕ → Frame) (n : ℕ) :
    (stateAt st0 fs n).frame_count = st0.frame_count + n := by
  induction n with
  | zero => rfl
  | succ n ih =>
    rw [stateAt, filter_frame_frame_count, ih]
    omega

theorem stateAt_sums_length (st0 : MaskState) (fs : ℕ → Frame) (n : ℕ) :
    (stateAt st0 fs n).prev_sums.length = st0.prev_sums.length := by
  induction n with
  | zero => rfl
  | succ n ih => rw [stateAt, filter_frame_prev_sums, List.length_set, ih]

theorem stateAt_slot_succ (st0 : MaskState) (fs : ℕ → Frame) (n j : ℕ) :
    (stateAt st0 fs (n + 1)).prev_sums.getD j [] =
      if (stateAt st0 fs n).frame_count % st0.frame_back = j ∧
          j < st0.prev_sums.length
      then (blockRun (stateAt st0 fs n) (fs n)).2.1
      else (stateAt st0 fs n).prev_sums.getD j [] := by
  rw [stateAt, filter_frame_prev_sums, stateAt_frame_back, getD_set,
    stateAt_sums_length]
  by_cases hc : (stateAt st0 fs n).frame_count % st0.frame_back = j
  · simp [hc]
  · simp [hc]

theorem replicate_getD_zero (L c : ℕ) : (List.replicate L (0 : ℕ)).getD c 0 = 0 := by
  induction L generalizing c with
  | zero => simp
  | succ L ih =>
    cases c with
    | zero => simp
    | succ c => simpa using ih c

theorem getD_replicate {α : Type} (K j : ℕ) (a : α) (d : α) (hj : j < K) :
    (List.replicate K a).getD j d = a := by
  induction K generalizing j with
  | zero => omega
  | succ K ih =>
    cases j with
    | zero => simp
    | succ j =>
      rw [List.replicate_succ, List.getD_cons_succ]
      exact ih j (by omega)

theorem length_origins (len s : ℕ) :
    (origins len s).length = (len + s - 1) / s := by
  rw [origins, List.length_map, List.length_range]

theorem length_blockList (w h s : ℕ) :
    (blockList w h s).length = (h + s - 1) / s * ((w + s - 1) / s) := by
  rw [blockList, List.length_flatMap]
  have hmap : List.map
      (List.length ∘ fun y => (origins w s).map fun x => (x, y)) (origins h s) =
      (origins h s).map fun _ => (w + s - 1) / s := by
    apply List.map_congr_left
    intro a _
    simp [Function.comp, length_origins]
  rw [hmap, sum_map_const, length_origins]

theorem mod_ne_of_between (a b K : ℕ) (hab : a < b) (hgap : b - a < K) :
    a % K ≠ b % K := by
  intro hmod
  have hdvd : K ∣ b - a := (Nat.modEq_iff_dvd' (by omega)).mp hmod
  rcases Nat.eq_zero_or_pos (b - a) with h0 | hpos
  · omega
  · have := Nat.le_of_dvd hpos hdvd
    omega

theorem sub_mod_self (n K : ℕ) (hK : K ≤ n) : (n - K) % K = n % K := by
  conv_rhs => rw [← Nat.sub_add_cancel hK]
  rw [Nat.add_mod_right]

theorem stateAt_zero (st0 : MaskState) (fs : ℕ → Frame) :
    stateAt st0 fs 0 = st0 := rfl

theorem runState_size (s : ℕ) (thr : ℚ) (K w h : ℕ) (fs : ℕ → Frame) (n : ℕ) :
    (runState s thr K w h fs n).size = s := by
  unfold runState
  rw [stateAt_size]
  rfl

theorem runState_threshold (s : ℕ) (thr : ℚ) (K w h : ℕ) (fs : ℕ → Frame)
    (n : ℕ) : (runState s thr K w h fs n).threshold = thr := by
  unfold runState
  rw [stateAt_threshold]
  rfl

theorem runState_frame_back (s : ℕ) (thr : ℚ) (K w h : ℕ) (fs : ℕ → Frame)
    (n : ℕ) : (runState s thr K w h fs n).frame_back = K := by
  unfold runState
  rw [stateAt_frame_back]
  rfl

theorem runState_frame_count (s : ℕ) (thr : ℚ) (K w h : ℕ) (fs : ℕ → Frame)
    (n : ℕ) : (runState s thr K w h fs n).frame_count = n := by
  unfold runState
  rw [stateAt_frame_count]
  simp [config_input]

theorem runState_slot_succ (s : ℕ) (thr : ℚ) (K w h : ℕ) (fs : ℕ → Frame)
    (n j : ℕ) :
    (runState s thr K w h fs (n + 1)).prev_sums.getD j [] =
      if n % K = j ∧ j < K
      then (blockRun (runState s thr K w h fs n) (fs n)).2.1
      else (runState s thr K w h fs n).prev_sums.getD j [] := by
  unfold runState
  rw [stateAt_slot_succ, stateAt_frame_count]
  simp only [config_input, List.length_replicate, Nat.zero_add]

theorem runState_slot_length (s : ℕ) (thr : ℚ) (K w h : ℕ) (fs : ℕ → Frame)
    (n j : ℕ) (hj : j < K) :
    ((runState s thr K w h fs n).prev_sums.getD j []).length =
      (w + s - 1) / s * ((h + s - 1) / s) := by
  induction n with
  | zero =>
    unfold runState
    rw [stateAt_zero]
    simp only [config_input]
    rw [getD_replicate _ _ _ _ hj, List.length_replicate]
  | succ n ih =>
    rw [runState_slot_succ]
    by_cases hcond : n % K = j ∧ j < K
    · rw [if_pos hcond]
      rw [blockRun, runBlocks_slot_length, runState_frame_count,
        runState_frame_back]
      rw [← hcond.1] at ih
      exact ih
    · rw [if_neg hcond]
      exact ih

theorem readValue_eq_slot (s : ℕ) (thr : ℚ) (K w h : ℕ) (fs : ℕ → Frame)
    (n c : ℕ) (hgeom : ∀ m, (fs m).width = w ∧ (fs m).height = h)
    (hc : c < (blockList w h s).length) :
    readValue s thr K w h fs n c =
      ((runState s thr K w h fs n).prev_sums.getD (n % K) []).getD c 0 := by
  rw [readValue, frameTrace, blockRun, (hgeom n).1, (hgeom n).2, runState_size,
    runState_threshold, runState_frame_count, runState_frame_back]
  have := trace_read s thr (blockList w h s) (fs n)
    ((runState s thr K w h fs n).prev_sums.getD (n % K) []) 0 c hc
  rw [this, Nat.zero_add]

theorem slot_after_store (s : ℕ) (thr : ℚ) (K w h : ℕ) (fs : ℕ → Frame)
    (n c : ℕ) (hK : 1 ≤ K)
    (hgeom : ∀ m, (fs m).width = w ∧ (fs m).height = h)
    (hc : c < (blockList w h s).length) :
    ((runState s thr K w h fs (n + 1)).prev_sums.getD (n % K) []).getD c 0 =
      recordedSum s thr K w h fs n c := by
  rw [runState_slot_succ,
    if_pos ⟨rfl, Nat.mod_lt n (by omega)⟩,
    recordedSum, frameTrace, blockRun, (hgeom n).1, (hgeom n).2, runState_size,
    runState_threshold, runState_frame_count, runState_frame_back]
  have hslot : c <
      ((runState s thr K w h fs n).prev_sums.getD (n % K) []).length := by
    rw [runState_slot_length s thr K w h fs n (n % K) (Nat.mod_lt n (by omega))]
    rw [length_blockList] at hc
    rw [Nat.mul_comm]
    exact hc
  have := trace_store s thr (blockList w h s) (fs n)
    ((runState s thr K w h fs n).prev_sums.getD (n % K) []) 0 c hc
    (by omega)
  rw [Nat.zero_add] at this
  exact this

theorem slot_stable_between (s : ℕ) (thr : ℚ) (K w h : ℕ) (fs : ℕ → Frame)
    (j lo : ℕ) :
    ∀ n, lo ≤ n → (∀ m, lo ≤ m → m < n → m % K ≠ j) →
      (runState s thr K w h fs n).prev_sums.getD j [] =
        (runState s thr K w h fs lo).prev_sums.getD j [] := by
  intro n
  induction n with
  | zero =>
    intro hlo _
    have h0 : lo = 0 := by omega
    rw [h0]
  | succ n ih =>
    intro hlo hnone
    by_cases heq : lo = n + 1
    · rw [heq]
    · have hlon : lo ≤ n := by omega
      rw [runState_slot_succ]
      have hne : ¬(n % K = j ∧ j < K) :=
        fun hcond => hnone n hlon (by omega) hcond.1
      rw [if_neg hne]
      exact ih hlon fun m hm1 hm2 => hnone m hm1 (by omega)

theorem readValue_closed (s : ℕ) (thr : ℚ) (K w h : ℕ) (fs : ℕ → Frame)
    (n c : ℕ) (hK : 1 ≤ K)
    (hgeom : ∀ m, (fs m).width = w ∧ (fs m).height = h)
    (hc : c < (blockList w h s).length) :
    readValue s thr K w h fs n c =
      if n < K then 0 else recordedSum s thr K w h fs (n - K) c := by
  rw [readValue_eq_slot s thr K w h fs n c hgeom hc]
  by_cases hn : n < K
  · rw [if_pos hn]
    have hmod : n % K = n := Nat.mod_eq_of_lt hn
    have hstable := slot_stable_between s thr K w h fs (n % K) 0 n
      (Nat.zero_le n)
      (fun m _ hmn => by
        rw [hmod, Nat.mod_eq_of_lt (by omega)]
        omega)
    rw [hstable]
    unfold runState
    rw [stateAt_zero]
    simp only [config_input]
    rw [getD_replicate _ _ _ _ (Nat.mod_lt n (by omega))]
    exact replicate_getD_zero _ _
  · rw [if_neg hn]
    have hKn : K ≤ n := by omega
    have hstable := slot_stable_between s thr K w h fs (n % K) (n - K + 1) n
      (by omega)
      (fun m hm1 hm2 => mod_ne_of_between m n K hm2 (by omega))
    rw [hstable]
    have hrw : n - K + 1 = (n - K) + 1 := rfl
    have hmod : n % K = (n - K) % K := (sub_mod_self n K hKn).symm
    rw [hrw, hmod]
    exact slot_after_store s thr K w h fs (n - K) c hK hgeom hc

/-! ### Helper lemmas: exactness of the delta arithmetic -/

/-- Largest value a block aggregate can take with byte samples and the maximal
configurable block side 600: `600 * 600` pixels, at most `3 * 255` per pixel. -/
def sumBound : ℕ := 600 * 600 * 765

theorem exact_abs (a b : ℕ) (ha : a < 2 ^ 31) (hb : b < 2 ^ 31) :
    cIntAbs (int32ofNat (u64sub a b)) = ((a : ℤ) - b).natAbs := by
  unfold cIntAbs int32ofNat u64sub
  split_ifs <;> omega

theorem tdiv_ofNat (m n : ℕ) :
    Int.tdiv (m : ℤ) (n : ℤ) = ((m / n : ℕ) : ℤ) := rfl

theorem cNorm_exact (sz a b : ℕ) (ha : a < 2 ^ 31) (hb : b < 2 ^ 31) :
    cNorm sz a b = ((((a : ℤ) - b).natAbs / (sz * sz / 10) : ℕ) : ℤ) := by
  rw [cNorm, exact_abs a b ha hb]
  exact tdiv_ofNat _ _

theorem blockSum_le (fr : Frame) (x y s : ℕ) (hs : s ≤ 600) :
    blockSum fr x y s ≤ sumBound := by
  have hraw : blockSumRaw fr x y s ≤ sumBound := by
    rw [blockSumRaw]
    have hb : ∀ v ∈ (blockCoords fr.width fr.height x y s).map fun ji =>
        (fr.Y ji.1 ji.2).val + (fr.U (ji.1 / 2) (ji.2 / 2)).val
          + (fr.V (ji.1 / 2) (ji.2 / 2)).val, v ≤ 765 := by
      intro v hv
      rw [List.mem_map] at hv
      obtain ⟨ji, _, hji⟩ := hv
      have h1 := (fr.Y ji.1 ji.2).is_le
      have h2 := (fr.U (ji.1 / 2) (ji.2 / 2)).is_le
      have h3 := (fr.V (ji.1 / 2) (ji.2 / 2)).is_le
      omega
    have hsum := List.sum_le_card_nsmul _ 765 hb
    rw [List.length_map, smul_eq_mul] at hsum
    have hlen : (blockCoords fr.width fr.height x y s).length ≤ s * s := by
      rw [length_blockCoords]
      apply Nat.mul_le_mul <;> omega
    have : (blockCoords fr.width fr.height x y s).length * 765 ≤
        600 * 600 * 765 := by
      have := Nat.mul_le_mul hlen (Nat.le_refl 765)
      have hss : s * s ≤ 600 * 600 := Nat.mul_le_mul hs hs
      omega
    rw [sumBound]
    omega
  rw [blockSum]
  exact le_trans (Nat.mod_le _ _) hraw

theorem sumBound_lt_int : sumBound < 2 ^ 31 := by
  rw [sumBound]
  omega

theorem set_slot_bound (slot : List ℕ) (rc v : ℕ) (hv : v ≤ sumBound)
    (hslot : ∀ c, slot.getD c 0 ≤ sumBound) :
    ∀ c, (slot.set rc v).getD c 0 ≤ sumBound := by
  intro c
  rw [getD_set]
  by_cases hcond : rc = c ∧ rc < slot.length
  · rw [if_pos hcond]
    exact hv
  · rw [if_neg hcond]
    exact hslot c

theorem runBlocks_slot_bound (s : ℕ) (thr : ℚ) (L : List (ℕ × ℕ)) (fr : Frame)
    (slot : List ℕ) (rc : ℕ) (hs : s ≤ 600)
    (hslot : ∀ c, slot.getD c 0 ≤ sumBound) :
    ∀ c, (runBlocks s thr L fr slot rc).2.1.getD c 0 ≤ sumBound := by
  induction L generalizing fr slot rc with
  | nil => exact hslot
  | cons p rest ih =>
    obtain ⟨x, y⟩ := p
    rw [runBlocks_cons]
    exact ih _ _ _ (set_slot_bound _ _ _ (blockSum_le fr x y s hs) hslot)

theorem trace_fst_bound (s : ℕ) (thr : ℚ) (L : List (ℕ × ℕ)) (fr : Frame)
    (slot : List ℕ) (rc : ℕ) (hs : s ≤ 600) (k : ℕ) :
    ((runBlocks s thr L fr slot rc).2.2.getD k (0, 0)).1 ≤ sumBound := by
  induction L generalizing fr slot rc k with
  | nil => simp [runBlocks_nil]
  | cons p rest ih =>
    obtain ⟨x, y⟩ := p
    rw [runBlocks_cons]
    cases k with
    | zero =>
      simp only [List.getD_cons_zero]
      exact blockSum_le fr x y s hs
    | succ k =>
      simp only [List.getD_cons_succ]
      exact ih _ _ _ _

theorem trace_snd_bound (s : ℕ) (thr : ℚ) (L : List (ℕ × ℕ)) (fr : Frame)
    (slot : List ℕ) (rc : ℕ) (hs : s ≤ 600)
    (hslot : ∀ c, slot.getD c 0 ≤ sumBound) (k : ℕ) :
    ((runBlocks s thr L fr slot rc).2.2.getD k (0, 0)).2 ≤ sumBound := by
  induction L generalizing fr slot rc k with
  | nil => simp [runBlocks_nil]
  | cons p rest ih =>
    obtain ⟨x, y⟩ := p
    rw [runBlocks_cons]
    cases k with
    | zero =>
      simp only [List.getD_cons_zero]
      exact hslot rc
    | succ k =>
      simp only [List.getD_cons_succ]
      exact ih _ _ _ (set_slot_bound _ _ _ (blockSum_le fr x y s hs) hslot) _

theorem runState_slot_entry_bound (s : ℕ) (thr : ℚ) (K w h : ℕ)
    (fs : ℕ → Frame) (n : ℕ) (hs : s ≤ 600) (j : ℕ) :
    ∀ c, ((runState s thr K w h fs n).prev_sums.getD j []).getD c 0 ≤
      sumBound := by
  induction n generalizing j with
  | zero =>
    intro c
    unfold runState
    rw [stateAt_zero]
    simp only [config_input]
    by_cases hj : j < K
    · rw [getD_replicate _ _ _ _ hj, replicate_getD_zero]
      omega
    · have hempty : (List.replicate K
          (List.replicate ((w + s - 1) / s * ((h + s - 1) / s)) (0 : ℕ))).getD
            j [] = [] :=
        List.getD_eq_default _ _ (by rw [List.length_replicate]; omega)
      rw [hempty]
      simp
  | succ n ih =>
    intro c
    rw [runState_slot_succ]
    by_cases hcond : n % K = j ∧ j < K
    · rw [if_pos hcond]
      rw [blockRun, runState_frame_count, runState_frame_back]
      refine runBlocks_slot_bound _ _ _ _ _ _ ?_ ?_ c
      · rw [runState_size]
        exact hs
      · rw [hcond.1]
        exact ih j
    · rw [if_neg hcond]
      exact ih j c

theorem recordedSum_bound (s : ℕ) (thr : ℚ) (K w h : ℕ) (fs : ℕ → Frame)
    (n c : ℕ) (hs : s ≤ 600) :
    recordedSum s thr K w h fs n c ≤ sumBound := by
  rw [recordedSum, frameTrace, blockRun]
  refine trace_fst_bound _ _ _ _ _ _ ?_ _
  rw [runState_size]
  exact hs

theorem readValue_bound (s : ℕ) (thr : ℚ) (K w h : ℕ) (fs : ℕ → Frame)
    (n c : ℕ) (hs : s ≤ 600) :
    readValue s thr K w h fs n c ≤ sumBound := by
  rw [readValue, frameTrace, blockRun]
  refine trace_snd_bound _ _ _ _ _ _ ?_ ?_ _
  · rw [runState_size]
    exact hs
  · rw [runState_frame_count, runState_frame_back]
    exact runState_slot_entry_bound s thr K w h fs n hs (n % K)

theorem ceil_div_eq (w s : ℕ) (hs : 1 ≤ s) :
    (((w + s - 1) / s : ℕ) : ℤ) = ⌈(w : ℚ) / (s : ℚ)⌉ := by
  have hdm := Nat.div_add_mod (w + s - 1) s
  have hmlt : (w + s - 1) % s < s := Nat.mod_lt _ (by omega)
  set q : ℕ := (w + s - 1) / s with hq
  have h1 : w ≤ s * q := by omega
  have h2 : s * q < w + s := by omega
  have hs0 : (0 : ℚ) < (s : ℚ) := by exact_mod_cast hs
  have h1q : (w : ℚ) ≤ (s : ℚ) * (q : ℚ) := by exact_mod_cast h1
  have h2q : (s : ℚ) * (q : ℚ) < (w : ℚ) + (s : ℚ) := by exact_mod_cast h2
  have hcomm : (q : ℚ) * (s : ℚ) = (s : ℚ) * (q : ℚ) := mul_comm _ _
  symm
  rw [Int.ceil_eq_iff]
  rw [Int.cast_natCast]
  constructor
  · rw [lt_div_iff₀ hs0, sub_mul, one_mul]
    linarith
  · rw [div_le_iff₀ hs0]
    linarith

/-- A tiny all-zero 2x2 frame used by several witnesses. -/
def wFrame : Frame :=
  { width := 2, height := 2
    Y := fun _ _ => 0
    U := fun _ _ => 0
    V := fun _ _ => 0 }

/-- A constant 6x6 frame used by the C5 witness; 6 is not a multiple of the
block size 4 there, so the grid has clipped edge blocks. -/
def cFrame : Frame :=
  { width := 6, height := 6
    Y := fun _ _ => 7
    U := fun _ _ => 9
    V := fun _ _ => 11 }

/-- C2: with lookback `K`, the value the comparator reads for a grid cell
during frame `n` is exactly the sum recorded for that same cell during frame
`n - K` (the ring slot `n % K` is read before being overwritten); during the
first `K` frames it reads the zero-initialised default 0. -/
theorem C2_ring_lookback (s : ℕ) (thr : ℚ) (K w h : ℕ) (fs : ℕ → Frame)
    (n c : ℕ) (hK : 1 ≤ K)
    (hgeom : ∀ m, (fs m).width = w ∧ (fs m).height = h)
    (hc : c < (blockList w h s).length) :
    readValue s thr K w h fs n c =
      if n < K then 0 else recordedSum s thr K w h fs (n - K) c :=
  readValue_closed s thr K w h fs n c hK hgeom hc

/-- Witness for C2 at a concrete configuration (frame index 2, lookback 1). -/
theorem C2_ring_lookback_witness :
    (1 ≤ 1 ∧ 0 < (blockList 2 2 2).length) ∧
      readValue 2 1 1 2 2 (fun _ => wFrame) 2 0 =
        if (2 : ℕ) < 1 then 0
        else recordedSum 2 1 1 2 2 (fun _ => wFrame) (2 - 1) 0 :=
  ⟨⟨by omega, by decide⟩,
    C2_ring_lookback 2 1 1 2 2 (fun _ => wFrame) 2 0 (by omega)
      (fun _ => ⟨rfl, rfl⟩) (by decide)⟩

/-- C3: after `filter_frame` returns, the history entry at ring slot
`frame_count % frame_back` for cell `c` equals the aggregate sum computed for
cell `c` during that frame; the proof never looks at the mask decision — the
store is unconditional. -/
theorem C3_store_unconditional (st : MaskState) (fr : Frame) (c : ℕ)
    (hbi : st.frame_count % st.frame_back < st.prev_sums.length)
    (hc : c < (blockList fr.width fr.height st.size).length)
    (hlen : c <
      (st.prev_sums.getD (st.frame_count % st.frame_back) []).length) :
    ((filter_frame st fr).1.prev_sums.getD
        (st.frame_count % st.frame_back) []).getD c 0 =
      ((frameTrace st fr).getD c (0, 0)).1 := by
  rw [filter_frame_prev_sums, getD_set, if_pos ⟨rfl, hbi⟩, blockRun,
    frameTrace, blockRun]
  have := trace_store st.size st.threshold
    (blockList fr.width fr.height st.size) fr
    (st.prev_sums.getD (st.frame_count % st.frame_back) []) 0 c hc (by omega)
  rw [Nat.zero_add] at this
  exact this

/-- Witness for C3 at a concrete state and frame. -/
theorem C3_store_unconditional_witness :
    ((config_input 2 1 1 2 2).frame_count % (config_input 2 1 1 2 2).frame_back
        < (config_input 2 1 1 2 2).prev_sums.length) ∧
      ((filter_frame (config_input 2 1 1 2 2) wFrame).1.prev_sums.getD
          ((config_input 2 1 1 2 2).frame_count %
            (config_input 2 1 1 2 2).frame_back) []).getD 0 0 =
        ((frameTrace (config_input 2 1 1 2 2) wFrame).getD 0 (0, 0)).1 :=
  ⟨by decide,
    C3_store_unconditional (config_input 2 1 1 2 2) wFrame 0 (by decide)
      (by decide) (by decide)⟩

/-- C4: in any run from a fresh configuration with `size ≤ 600`, the delta of
the comparison — computed through the uint64 subtraction, the implicit
conversion to `int`, and `abs` — equals the exact absolute difference of the
two aggregate sums (no truncation or wraparound), and the normalised value is
that delta divided by `size * size / 10` with integer-division semantics.
The mask decision for block `c` of frame `n` is the comparison applied to
exactly these two sums. -/
theorem C4_delta_exact (s : ℕ) (thr : ℚ) (K w h : ℕ) (fs : ℕ → Frame)
    (n c : ℕ) (hs : s ≤ 600) :
    decisionAt (runState s thr K w h fs n) (fs n) c =
      staticDecision s thr (recordedSum s thr K w h fs n c)
        (readValue s thr K w h fs n c) ∧
    cIntAbs (int32ofNat (u64sub (recordedSum s thr K w h fs n c)
        (readValue s thr K w h fs n c))) =
      ((recordedSum s thr K w h fs n c : ℤ) -
        (readValue s thr K w h fs n c : ℤ)).natAbs ∧
    cNorm s (recordedSum s thr K w h fs n c) (readValue s thr K w h fs n c) =
      ((((recordedSum s thr K w h fs n c : ℤ) -
          (readValue s thr K w h fs n c : ℤ)).natAbs / (s * s / 10) : ℕ) :
        ℤ) := by
  have h1 := recordedSum_bound s thr K w h fs n c hs
  have h2 := readValue_bound s thr K w h fs n c hs
  have hB : sumBound < 2 ^ 31 := sumBound_lt_int
  refine ⟨?_, exact_abs _ _ (by omega) (by omega),
    cNorm_exact _ _ _ (by omega) (by omega)⟩
  rw [decisionAt, runState_size, runState_threshold, recordedSum, readValue]

/-- Witness for C4 at a concrete run. -/
theorem C4_delta_exact_witness :
    ((2 : ℕ) ≤ 600) ∧
      cNorm 2 (recordedSum 2 1 1 2 2 (fun _ => wFrame) 1 0)
          (readValue 2 1 1 2 2 (fun _ => wFrame) 1 0) =
        ((((recordedSum 2 1 1 2 2 (fun _ => wFrame) 1 0 : ℤ) -
            (readValue 2 1 1 2 2 (fun _ => wFrame) 1 0 : ℤ)).natAbs /
          (2 * 2 / 10) : ℕ) : ℤ) :=
  ⟨by omega,
    (C4_delta_exact 2 1 1 2 2 (fun _ => wFrame) 1 0 (by omega)).2.2⟩

/-- C5: the mask decision of every block — clipped edge blocks included —
divides by the nominal `size * size / 10`, never by the block's clipped pixel
count; that divisor is nonzero whenever `size ≥ 4`, and truncates to 0 for
`size` between 1 and 3. -/
theorem C5_nominal_divisor (st : MaskState) (fr : Frame) (k : ℕ)
    (hk : k < (blockList fr.width fr.height st.size).length) :
    decisionAt st fr k =
      decide (((Int.tdiv (cIntAbs (int32ofNat
          (u64sub ((frameTrace st fr).getD k (0, 0)).1
            ((frameTrace st fr).getD k (0, 0)).2)))
          ((st.size * st.size / 10 : ℕ) : ℤ) : ℤ) : ℚ) < st.threshold) ∧
    (4 ≤ st.size → 1 ≤ st.size * st.size / 10) ∧
    (1 ≤ st.size → st.size ≤ 3 → st.size * st.size / 10 = 0) := by
  refine ⟨rfl, ?_, ?_⟩
  · intro h4
    have h16 : 16 ≤ st.size * st.size := Nat.mul_le_mul h4 h4
    omega
  · intro _ h3
    have h9 : st.size * st.size ≤ 9 := Nat.mul_le_mul h3 h3
    omega

/-- Witness for C5 on a grid with clipped edge blocks (6x6 frame, size 4). -/
theorem C5_nominal_divisor_witness :
    (3 < (blockList cFrame.width cFrame.height
        (config_input 4 1 1 6 6).size).length ∧
      4 ≤ (config_input 4 1 1 6 6).size) ∧
      1 ≤ (config_input 4 1 1 6 6).size * (config_input 4 1 1 6 6).size / 10 :=
  ⟨⟨by decide, by decide⟩,
    (C5_nominal_divisor (config_input 4 1 1 6 6) cFrame 3 (by decide)).2.1
      (by decide)⟩

/-- C6: `config_input` sets the grid dimensions to the rounded-up quotients
(the mathematical ceilings of width/size and height/size), allocates exactly
`frame_back` history slots each holding `gridWidth * gridHeight` zero-filled
entries, and resets the frame counter to 0. -/
theorem C6_config_geometry (s : ℕ) (thr : ℚ) (K w h : ℕ) (hs : 1 ≤ s)
    (hw : 1 ≤ w) (hh : 1 ≤ h) :
    (((config_input s thr K w h).prev_width : ℤ) = ⌈(w : ℚ) / (s : ℚ)⌉) ∧
    (((config_input s thr K w h).prev_height : ℤ) = ⌈(h : ℚ) / (s : ℚ)⌉) ∧
    (config_input s thr K w h).prev_sums.length = K ∧
    (∀ slot ∈ (config_input s thr K w h).prev_sums,
      slot = List.replicate ((config_input s thr K w h).prev_width *
        (config_input s thr K w h).prev_height) 0) ∧
    (config_input s thr K w h).frame_count = 0 := by
  refine ⟨ceil_div_eq w s hs, ceil_div_eq h s hs, by simp [config_input],
    ?_, rfl⟩
  intro slot hmem
  rw [config_input] at hmem
  simp only [List.mem_replicate] at hmem
  exact hmem.2

/-- Witness for C6 at a concrete geometry (64x48, size 20, lookback 3). -/
theorem C6_config_geometry_witness :
    ((1 : ℕ) ≤ 20 ∧ (1 : ℕ) ≤ 64 ∧ (1 : ℕ) ≤ 48) ∧
      (((config_input 20 1 3 64 48).prev_width : ℤ) =
          ⌈(64 : ℚ) / (20 : ℚ)⌉ ∧
        (config_input 20 1 3 64 48).prev_sums.length = 3) :=
  ⟨⟨by omega, by omega, by omega⟩,
    (C6_config_geometry 20 1 3 64 48 (by omega) (by omega) (by omega)).1,
    (C6_config_geometry 20 1 3 64 48 (by omega) (by omega) (by omega)).2.2.1⟩

/-- C8 counterexample: block size 0 lies inside the option range the source
declares (`0` to `600`), so the configuration `size = 0` is accepted — the
claim says it must be rejected. -/
theorem C8_counterexample : size_accepted 0 = true := rfl

/-- C8 amended: a configured block size outside `[0, 600]` is rejected at
configuration time before any frame is processed, but `blockSize = 0` is
inside the declared range and is accepted. -/
theorem C8_amended (v : ℤ) :
    ((v < 0 ∨ 600 < v) → size_accepted v = false) ∧
      size_accepted 0 = true := by
  constructor
  · intro hv
    simp only [size_accepted, Bool.and_eq_false_iff, decide_eq_false_iff_not,
      not_le]
    omega
  · rfl

/-- Witness for C8 amended: 601 is rejected, 0 is accepted. -/
theorem C8_amended_witness :
    ((601 : ℤ) < 0 ∨ (600 : ℤ) < 601) ∧
      size_accepted 601 = false ∧ size_accepted 0 = true :=
  ⟨Or.inr (by omega), (C8_amended 601).1 (Or.inr (by omega)),
    (C8_amended 601).2⟩

/-- C9 counterexample: after a first teardown the `prev_sums` pointer is not
cleared, so a second teardown frees the same buffers again — it is a double
free, not a safe no-op as the claim states. -/
theorem C9_counterexample :
    (uninit (uninit configuredCtx)).double_free = true := rfl

/-- C9 amended: teardown on a never-initialised context is a no-op, and a
single teardown after setup releases the buffers exactly once; but a second
teardown after a previous one frees them again (the pointer is not cleared),
so repeated teardown is not safe. -/
theorem C9_amended (c : CtxMem) :
    (c.prev_sums_null = true → uninit c = c) ∧
    (uninit configuredCtx).allocated = false ∧
    (uninit configuredCtx).double_free = false ∧
    (uninit (uninit configuredCtx)).double_free = true := by
  refine ⟨?_, rfl, rfl, rfl⟩
  intro hnull
  simp [uninit, hnull]

/-- Witness for C9 amended: teardown of the fresh context is a no-op. -/
theorem C9_amended_witness :
    freshCtx.prev_sums_null = true ∧ uninit freshCtx = freshCtx :=
  ⟨rfl, (C9_amended freshCtx).1 rfl⟩

/-! ### Helper lemmas: which samples the block loop overwrites -/

/-- The mask decision taken for entry `k` of a block-loop run. -/
def decOf (s : ℕ) (thr : ℚ) (L : List (ℕ × ℕ)) (fr : Frame) (slot : List ℕ)
    (rc k : ℕ) : Bool :=
  staticDecision s thr ((runBlocks s thr L fr slot rc).2.2.getD k (0, 0)).1
    ((runBlocks s thr L fr slot rc).2.2.getD k (0, 0)).2

theorem decOf_cons_zero (s : ℕ) (thr : ℚ) (x y : ℕ) (rest : List (ℕ × ℕ))
    (fr : Frame) (slot : List ℕ) (rc : ℕ) :
    decOf s thr ((x, y) :: rest) fr slot rc 0 =
      staticDecision s thr (blockSum fr x y s) (slot.getD rc 0) := rfl

theorem decOf_cons_succ (s : ℕ) (thr : ℚ) (x y : ℕ) (rest : List (ℕ × ℕ))
    (fr : Frame) (slot : List ℕ) (rc k : ℕ) :
    decOf s thr ((x, y) :: rest) fr slot rc (k + 1) =
      decOf s thr rest
        (if staticDecision s thr (blockSum fr x y s) (slot.getD rc 0)
          then maskBlock fr x y s else fr)
        (slot.set rc (blockSum fr x y s)) (rc + 1) k := rfl

theorem step_width (d : Bool) (fr : Frame) (x y s : ℕ) :
    (if d then maskBlock fr x y s else fr).width = fr.width := by
  cases d <;> rfl

theorem step_height (d : Bool) (fr : Frame) (x y s : ℕ) :
    (if d then maskBlock fr x y s else fr).height = fr.height := by
  cases d <;> rfl

theorem runBlocks_Y_uncovered (s : ℕ) (thr : ℚ) (L : List (ℕ × ℕ)) :
    ∀ (fr : Frame) (slot : List ℕ) (rc j i : ℕ),
      (∀ k, k < L.length → decOf s thr L fr slot rc k = true →
        (j, i) ∉ blockCoords fr.width fr.height (L.getD k (0, 0)).1
          (L.getD k (0, 0)).2 s) →
      (runBlocks s thr L fr slot rc).1.Y j i = fr.Y j i := by
  induction L with
  | nil => intro fr slot rc j i _; rfl
  | cons p rest ih =>
    intro fr slot rc j i hnc
    obtain ⟨x, y⟩ := p
    rw [runBlocks_cons]
    have hrest : ∀ k, k < rest.length →
        decOf s thr rest
          (if staticDecision s thr (blockSum fr x y s) (slot.getD rc 0)
            then maskBlock fr x y s else fr)
          (slot.set rc (blockSum fr x y s)) (rc + 1) k = true →
        (j, i) ∉ blockCoords
          (if staticDecision s thr (blockSum fr x y s) (slot.getD rc 0)
            then maskBlock fr x y s else fr).width
          (if staticDecision s thr (blockSum fr x y s) (slot.getD rc 0)
            then maskBlock fr x y s else fr).height
          (rest.getD k (0, 0)).1 (rest.getD k (0, 0)).2 s := by
      intro k hk hdec
      rw [step_width, step_height]
      have := hnc (k + 1) (by simp only [List.length_cons]; omega)
        (by rw [decOf_cons_succ]; exact hdec)
      simpa using this
    rw [ih _ _ _ _ _ hrest]
    cases hd : staticDecision s thr (blockSum fr x y s) (slot.getD rc 0) with
    | false => rw [if_neg (by simp [hd])]
    | true =>
      rw [if_pos (by simp [hd]), maskBlock_Y, if_neg]
      have := hnc 0 (by simp) (by rw [decOf_cons_zero]; exact hd)
      simpa using this

theorem runBlocks_U_uncovered (s : ℕ) (thr : ℚ) (L : List (ℕ × ℕ)) :
    ∀ (fr : Frame) (slot : List ℕ) (rc p q : ℕ),
      (∀ k, k < L.length → decOf s thr L fr slot rc k = true →
        (p, q) ∉ halfCoords fr.width fr.height (L.getD k (0, 0)).1
          (L.getD k (0, 0)).2 s) →
      (runBlocks s thr L fr slot rc).1.U p q = fr.U p q := by
  induction L with
  | nil => intro fr slot rc p q _; rfl
  | cons pr rest ih =>
    intro fr slot rc p q hnc
    obtain ⟨x, y⟩ := pr
    rw [runBlocks_cons]
    have hrest : ∀ k, k < rest.length →
        decOf s thr rest
          (if staticDecision s thr (blockSum fr x y s) (slot.getD rc 0)
            then maskBlock fr x y s else fr)
          (slot.set rc (blockSum fr x y s)) (rc + 1) k = true →
        (p, q) ∉ halfCoords
          (if staticDecision s thr (blockSum fr x y s) (slot.getD rc 0)
            then maskBlock fr x y s else fr).width
          (if staticDecision s thr (blockSum fr x y s) (slot.getD rc 0)
            then maskBlock fr x y s else fr).height
          (rest.getD k (0, 0)).1 (rest.getD k (0, 0)).2 s := by
      intro k hk hdec
      rw [step_width, step_height]
      have := hnc (k + 1) (by simp only [List.length_cons]; omega)
        (by rw [decOf_cons_succ]; exact hdec)
      simpa using this
    rw [ih _ _ _ _ _ hrest]
    cases hd : staticDecision s thr (blockSum fr x y s) (slot.getD rc 0) with
    | false => rw [if_neg (by simp [hd])]
    | true =>
      rw [if_pos (by simp [hd]), maskBlock_U, if_neg]
      have := hnc 0 (by simp) (by rw [decOf_cons_zero]; exact hd)
      simpa using this

theorem runBlocks_V_uncovered (s : ℕ) (thr : ℚ) (L : List (ℕ × ℕ)) :
    ∀ (fr : Frame) (slot : List ℕ) (rc p q : ℕ),
      (∀ k, k < L.length → decOf s thr L fr slot rc k = true →
        (p, q) ∉ halfCoords fr.width fr.height (L.getD k (0, 0)).1
          (L.getD k (0, 0)).2 s) →
      (runBlocks s thr L fr slot rc).1.V p q = fr.V p q := by
  induction L with
  | nil => intro fr slot rc p q _; rfl
  | cons pr rest ih =>
    intro fr slot rc p q hnc
    obtain ⟨x, y⟩ := pr
    rw [runBlocks_cons]
    have hrest : ∀ k, k < rest.length →
        decOf s thr rest
          (if staticDecision s thr (blockSum fr x y s) (slot.getD rc 0)
            then maskBlock fr x y s else fr)
          (slot.set rc (blockSum fr x y s)) (rc + 1) k = true →
        (p, q) ∉ halfCoords
          (if staticDecision s thr (blockSum fr x y s) (slot.getD rc 0)
            then maskBlock fr x y s else fr).width
          (if staticDecision s thr (blockSum fr x y s) (slot.getD rc 0)
            then maskBlock fr x y s else fr).height
          (rest.getD k (0, 0)).1 (rest.getD k (0, 0)).2 s := by
      intro k hk hdec
      rw [step_width, step_height]
      have := hnc (k + 1) (by simp only [List.length_cons]; omega)
        (by rw [decOf_cons_succ]; exact hdec)
      simpa using this
    rw [ih _ _ _ _ _ hrest]
    cases hd : staticDecision s thr (blockSum fr x y s) (slot.getD rc 0) with
    | false => rw [if_neg (by simp [hd])]
    | true =>
      rw [if_pos (by simp [hd]), maskBlock_V, if_neg]
      have := hnc 0 (by simp) (by rw [decOf_cons_zero]; exact hd)
      simpa using this

theorem runBlocks_Y_covered (s : ℕ) (thr : ℚ) (L : List (ℕ × ℕ)) :
    ∀ (fr : Frame) (slot : List ℕ) (rc j i k : ℕ), k < L.length →
      decOf s thr L fr slot rc k = true →
      (j, i) ∈ blockCoords fr.width fr.height (L.getD k (0, 0)).1
        (L.getD k (0, 0)).2 s →
      (runBlocks s thr L fr slot rc).1.Y j i = 16 := by
  induction L with
  | nil => intro fr slot rc j i k hk; simp at hk
  | cons p rest ih =>
    intro fr slot rc j i k hk hdec hmem
    obtain ⟨x, y⟩ := p
    rw [runBlocks_cons]
    cases k with
    | zero =>
      rw [decOf_cons_zero] at hdec
      rw [if_pos hdec]
      by_cases hcov : ∃ k', k' < rest.length ∧
          decOf s thr rest (maskBlock fr x y s)
            (slot.set rc (blockSum fr x y s)) (rc + 1) k' = true ∧
          (j, i) ∈ blockCoords fr.width fr.height (rest.getD k' (0, 0)).1
            (rest.getD k' (0, 0)).2 s
      · obtain ⟨k', hk', hdec', hmem'⟩ := hcov
        refine ih _ _ _ j i k' hk' hdec' ?_
        rw [maskBlock_width, maskBlock_height]
        exact hmem'
      · rw [runBlocks_Y_uncovered s thr rest _ _ _ _ _ ?_]
        · rw [maskBlock_Y, if_pos]
          simp only [List.getD_cons_zero] at hmem
          exact hmem
        · intro k' hk' hdec'
          rw [maskBlock_width, maskBlock_height]
          intro hmem'
          exact hcov ⟨k', hk', hdec', hmem'⟩
    | succ k =>
      rw [decOf_cons_succ] at hdec
      simp only [List.getD_cons_succ] at hmem
      refine ih _ _ _ j i k (by simp only [List.length_cons] at hk; omega)
        hdec ?_
      rw [step_width, step_height]
      exact hmem

theorem runBlocks_U_covered (s : ℕ) (thr : ℚ) (L : List (ℕ × ℕ)) :
    ∀ (fr : Frame) (slot : List ℕ) (rc p q k : ℕ), k < L.length →
      decOf s thr L fr slot rc k = true →
      (p, q) ∈ halfCoords fr.width fr.height (L.getD k (0, 0)).1
        (L.getD k (0, 0)).2 s →
      (runBlocks s thr L fr slot rc).1.U p q = 128 := by
  induction L with
  | nil => intro fr slot rc p q k hk; simp at hk
  | cons pr rest ih =>
    intro fr slot rc p q k hk hdec hmem
    obtain ⟨x, y⟩ := pr
    rw [runBlocks_cons]
    cases k with
    | zero =>
      rw [decOf_cons_zero] at hdec
      rw [if_pos hdec]
      by_cases hcov : ∃ k', k' < rest.length ∧
          decOf s thr rest (maskBlock fr x y s)
            (slot.set rc (blockSum fr x y s)) (rc + 1) k' = true ∧
          (p, q) ∈ halfCoords fr.width fr.height (rest.getD k' (0, 0)).1
            (rest.getD k' (0, 0)).2 s
      · obtain ⟨k', hk', hdec', hmem'⟩ := hcov
        refine ih _ _ _ p q k' hk' hdec' ?_
        rw [maskBlock_width, maskBlock_height]
        exact hmem'
      · rw [runBlocks_U_uncovered s thr rest _ _ _ _ _ ?_]
        · rw [maskBlock_U, if_pos]
          simp only [List.getD_cons_zero] at hmem
          exact hmem
        · intro k' hk' hdec'
          rw [maskBlock_width, maskBlock_height]
          intro hmem'
          exact hcov ⟨k', hk', hdec', hmem'⟩
    | succ k =>
      rw [decOf_cons_succ] at hdec
      simp only [List.getD_cons_succ] at hmem
      refine ih _ _ _ p q k (by simp only [List.length_cons] at hk; omega)
        hdec ?_
      rw [step_width, step_height]
      exact hmem

theorem runBlocks_V_covered (s : ℕ) (thr : ℚ) (L : List (ℕ × ℕ)) :
    ∀ (fr : Frame) (slot : List ℕ) (rc p q k : ℕ), k < L.length →
      decOf s thr L fr slot rc k = true →
      (p, q) ∈ halfCoords fr.width fr.height (L.getD k (0, 0)).1
        (L.getD k (0, 0)).2 s →
      (runBlocks s thr L fr slot rc).1.V p q = 128 := by
  induction L with
  | nil => intro fr slot rc p q k hk; simp at hk
  | cons pr rest ih =>
    intro fr slot rc p q k hk hdec hmem
    obtain ⟨x, y⟩ := pr
    rw [runBlocks_cons]
    cases k with
    | zero =>
      rw [decOf_cons_zero] at hdec
      rw [if_pos hdec]
      by_cases hcov : ∃ k', k' < rest.length ∧
          decOf s thr rest (maskBlock fr x y s)
            (slot.set rc (blockSum fr x y s)) (rc + 1) k' = true ∧
          (p, q) ∈ halfCoords fr.width fr.height (rest.getD k' (0, 0)).1
            (rest.getD k' (0, 0)).2 s
      · obtain ⟨k', hk', hdec', hmem'⟩ := hcov
        refine ih _ _ _ p q k' hk' hdec' ?_
        rw [maskBlock_width, maskBlock_height]
        exact hmem'
      · rw [runBlocks_V_uncovered s thr rest _ _ _ _ _ ?_]
        · rw [maskBlock_V, if_pos]
          simp only [List.getD_cons_zero] at hmem
          exact hmem
        · intro k' hk' hdec'
          rw [maskBlock_width, maskBlock_height]
          intro hmem'
          exact hcov ⟨k', hk', hdec', hmem'⟩
    | succ k =>
      rw [decOf_cons_succ] at hdec
      simp only [List.getD_cons_succ] at hmem
      refine ih _ _ _ p q k (by simp only [List.length_cons] at hk; omega)
        hdec ?_
      rw [step_width, step_height]
      exact hmem

/-! ### Helper lemmas: grid geometry -/

theorem mem_origins (len s v : ℕ) :
    v ∈ origins len s ↔ ∃ a, a < (len + s - 1) / s ∧ v = a * s := by
  simp only [origins, List.mem_map, List.mem_range]
  constructor
  · rintro ⟨a, ha, rfl⟩
    exact ⟨a, ha, rfl⟩
  · rintro ⟨a, ha, rfl⟩
    exact ⟨a, ha, rfl⟩

theorem mem_blockList (w h s : ℕ) (p : ℕ × ℕ) :
    p ∈ blockList w h s ↔ ∃ a b, a < (w + s - 1) / s ∧ b < (h + s - 1) / s ∧
      p = (a * s, b * s) := by
  simp only [blockList, List.mem_flatMap, List.mem_map, mem_origins]
  constructor
  · rintro ⟨v, ⟨b, hb, rfl⟩, x, ⟨a, ha, rfl⟩, rfl⟩
    exact ⟨a, b, ha, hb, rfl⟩
  · rintro ⟨a, b, ha, hb, rfl⟩
    exact ⟨b * s, ⟨b, hb, rfl⟩, a * s, ⟨a, ha, rfl⟩, rfl⟩

theorem origins_nodup (len s : ℕ) (hs : 1 ≤ s) : (origins len s).Nodup := by
  refine List.Nodup.map ?_ (List.nodup_range _)
  intro a b hab
  have : a * s = b * s := hab
  exact Nat.eq_of_mul_eq_mul_right (by omega) this

theorem blockList_nodup (w h s : ℕ) (hs : 1 ≤ s) :
    (blockList w h s).Nodup := by
  rw [blockList, List.nodup_flatMap]
  constructor
  · intro y _
    refine List.Nodup.map ?_ (origins_nodup w s hs)
    intro a b hab
    exact congrArg Prod.fst hab
  · refine List.Pairwise.imp_of_mem ?_ (origins_nodup h s hs)
    intro y y' hy hy' hne
    intro p hp hp'
    simp only [List.mem_map] at hp hp'
    obtain ⟨x, _, rfl⟩ := hp
    obtain ⟨x', _, heq⟩ := hp'
    exact hne (congrArg Prod.snd heq).symm

theorem coords_origin_unique (w h s : ℕ) (hs : 1 ≤ s) (a b a' b' j i : ℕ)
    (h1 : (j, i) ∈ blockCoords w h (a * s) (b * s) s)
    (h2 : (j, i) ∈ blockCoords w h (a' * s) (b' * s) s) :
    a = a' ∧ b = b' := by
  rw [mem_blockCoords] at h1 h2
  constructor
  · by_contra hne
    rcases Nat.lt_or_ge a a' with hlt | hge
    · have hstep : (a + 1) * s ≤ a' * s := Nat.mul_le_mul_right s (by omega)
      rw [Nat.succ_mul] at hstep
      omega
    · have hlt' : a' < a := by omega
      have hstep : (a' + 1) * s ≤ a * s := Nat.mul_le_mul_right s (by omega)
      rw [Nat.succ_mul] at hstep
      omega
  · by_contra hne
    rcases Nat.lt_or_ge b b' with hlt | hge
    · have hstep : (b + 1) * s ≤ b' * s := Nat.mul_le_mul_right s (by omega)
      rw [Nat.succ_mul] at hstep
      omega
    · have hlt' : b' < b := by omega
      have hstep : (b' + 1) * s ≤ b * s := Nat.mul_le_mul_right s (by omega)
      rw [Nat.succ_mul] at hstep
      omega

theorem mul_even (b s : ℕ) (heven : s % 2 = 0) : b * s % 2 = 0 := by
  obtain ⟨t, rfl⟩ := Nat.dvd_of_mod_eq_zero heven
  rw [show b * (2 * t) = 2 * (b * t) by ring]
  exact Nat.mul_mod_right 2 (b * t)

/-- With an even block size, samples of distinct blocks can never share a
half-resolution chroma coordinate: the write targets of one block never touch
the read or write targets of another. -/
def noTouch (w h s : ℕ) (p q : ℕ × ℕ) : Prop :=
  ∀ j i, (j, i) ∈ blockCoords w h p.1 p.2 s →
    ∀ j' i', (j', i') ∈ blockCoords w h q.1 q.2 s →
      j / 2 ≠ j' / 2 ∨ i / 2 ≠ i' / 2

theorem half_separated (m m' v v' s : ℕ) (hm : m % 2 = 0) (hm' : m' % 2 = 0)
    (h4 : m + s ≤ m') (h1 : m ≤ v) (h2 : v < m + s) (h3 : m' ≤ v') :
    v / 2 < v' / 2 := by
  omega

theorem noTouch_of_ne (w h s : ℕ) (hs : 1 ≤ s) (heven : s % 2 = 0)
    (p q : ℕ × ℕ) (hp : p ∈ blockList w h s) (hq : q ∈ blockList w h s)
    (hne : p ≠ q) : noTouch w h s p q := by
  rw [mem_blockList] at hp hq
  obtain ⟨a, b, _, _, rfl⟩ := hp
  obtain ⟨a', b', _, _, rfl⟩ := hq
  intro j i hji j' i' hji'
  rw [mem_blockCoords] at hji hji'
  by_cases haa : a = a'
  · have hbb : b ≠ b' := by
      intro hbb
      exact hne (by rw [haa, hbb])
    left
    rcases Nat.lt_or_ge b b' with hlt | hge
    · have hstep : (b + 1) * s ≤ b' * s := Nat.mul_le_mul_right s (by omega)
      rw [Nat.succ_mul] at hstep
      exact Nat.ne_of_lt (half_separated (b * s) (b' * s) j j' s
        (mul_even b s heven) (mul_even b' s heven) hstep (by omega) (by omega)
        (by omega))
    · have hlt' : b' < b := by omega
      have hstep : (b' + 1) * s ≤ b * s := Nat.mul_le_mul_right s (by omega)
      rw [Nat.succ_mul] at hstep
      exact (Nat.ne_of_lt (half_separated (b' * s) (b * s) j' j s
        (mul_even b' s heven) (mul_even b s heven) hstep (by omega) (by omega)
        (by omega))).symm
  · right
    rcases Nat.lt_or_ge a a' with hlt | hge
    · have hstep : (a + 1) * s ≤ a' * s := Nat.mul_le_mul_right s (by omega)
      rw [Nat.succ_mul] at hstep
      exact Nat.ne_of_lt (half_separated (a * s) (a' * s) i i' s
        (mul_even a s heven) (mul_even a' s heven) hstep (by omega) (by omega)
        (by omega))
    · have hlt' : a' < a := by omega
      have hstep : (a' + 1) * s ≤ a * s := Nat.mul_le_mul_right s (by omega)
      rw [Nat.succ_mul] at hstep
      exact (Nat.ne_of_lt (half_separated (a' * s) (a * s) i' i s
        (mul_even a' s heven) (mul_even a s heven) hstep (by omega) (by omega)
        (by omega))).symm

theorem blockList_pairwise_noTouch (w h s : ℕ) (hs : 1 ≤ s)
    (heven : s % 2 = 0) : (blockList w h s).Pairwise (noTouch w h s) := by
  refine List.Pairwise.imp_of_mem ?_ (blockList_nodup w h s hs)
  intro p q hp hq hne
  exact noTouch_of_ne w h s hs heven p q hp hq hne

/-- The frame of the C1/C10 scenarios: 10x5, luma 0 on the left block and 100
on the right one, chroma all zero; with block size 5 the two blocks share the
half-resolution chroma column 2. -/
def frA : Frame :=
  { width := 10, height := 5
    Y := fun _ i => if i < 5 then 0 else 100
    U := fun _ _ => 0
    V := fun _ _ => 0 }

/-- C1 counterexample: block 1 (origin (5,0)) of this frame is not masked —
its normalised delta 1890 is not below the threshold 1 — yet the chroma
sample it addresses for pixel (0,5), at half-resolution position (0,2), is
not byte-for-byte unchanged: the input frame held 0 there and after
processing it is 128, because masked block 0 shares that chroma column. -/
theorem C1_counterexample :
    decisionAt (config_input 5 1 1 10 5) frA 1 = false ∧
    (blockList frA.width frA.height
      (config_input 5 1 1 10 5).size).getD 1 (0, 0) = (5, 0) ∧
    (0, 5) ∈ blockCoords frA.width frA.height 5 0
      (config_input 5 1 1 10 5).size ∧
    frA.U (0 / 2) (5 / 2) = 0 ∧
    (outFrame (config_input 5 1 1 10 5) frA).U (0 / 2) (5 / 2) = 128 :=
  ⟨by decide, by decide, by decide, by decide, by decide⟩

/-- C1 amended: for every processed frame and grid block `k` with origin
`(x, y)`: if the block's normalised delta is below the threshold, then after
`filter_frame` every luma sample of the block's clipped extent is 16 and both
chroma samples addressed at half-resolution coordinates are 128.  Otherwise
every luma sample of the block is byte-for-byte unchanged, and every chroma
sample it addresses is unchanged unless that half-resolution position is also
addressed by some masked block (adjacent blocks share chroma positions when
the block size is odd, and a masked neighbour overwrites the shared
samples). -/
theorem C1_blocks (st : MaskState) (fr : Frame) (k x y : ℕ)
    (hs : 1 ≤ st.size)
    (hk : k < (blockList fr.width fr.height st.size).length)
    (hxy : (blockList fr.width fr.height st.size).getD k (0, 0) = (x, y)) :
    (decisionAt st fr k = true →
      ∀ j i, (j, i) ∈ blockCoords fr.width fr.height x y st.size →
        (outFrame st fr).Y j i = 16 ∧
        (outFrame st fr).U (j / 2) (i / 2) = 128 ∧
        (outFrame st fr).V (j / 2) (i / 2) = 128) ∧
    (decisionAt st fr k = false →
      ∀ j i, (j, i) ∈ blockCoords fr.width fr.height x y st.size →
        (outFrame st fr).Y j i = fr.Y j i ∧
        ((¬ ∃ m, m < (blockList fr.width fr.height st.size).length ∧
            decisionAt st fr m = true ∧
            ∃ j' i', (j', i') ∈ blockCoords fr.width fr.height
              ((blockList fr.width fr.height st.size).getD m (0, 0)).1
              ((blockList fr.width fr.height st.size).getD m (0, 0)).2
              st.size ∧ j' / 2 = j / 2 ∧ i' / 2 = i / 2) →
          (outFrame st fr).U (j / 2) (i / 2) = fr.U (j / 2) (i / 2) ∧
          (outFrame st fr).V (j / 2) (i / 2) = fr.V (j / 2) (i / 2))) := by
  constructor
  · intro hd j i hmem
    have hmem' : (j, i) ∈ blockCoords fr.width fr.height
        ((blockList fr.width fr.height st.size).getD k (0, 0)).1
        ((blockList fr.width fr.height st.size).getD k (0, 0)).2 st.size := by
      rw [hxy]
      exact hmem
    have hhalf : (j / 2, i / 2) ∈ halfCoords fr.width fr.height
        ((blockList fr.width fr.height st.size).getD k (0, 0)).1
        ((blockList fr.width fr.height st.size).getD k (0, 0)).2 st.size := by
      rw [hxy]
      exact List.mem_map.mpr ⟨(j, i), hmem, rfl⟩
    exact ⟨runBlocks_Y_covered st.size st.threshold _ fr _ 0 j i k hk hd hmem',
      runBlocks_U_covered st.size st.threshold _ fr _ 0 (j / 2) (i / 2) k hk
        hd hhalf,
      runBlocks_V_covered st.size st.threshold _ fr _ 0 (j / 2) (i / 2) k hk
        hd hhalf⟩
  · intro hd j i hmem
    have hmem' : (j, i) ∈ blockCoords fr.width fr.height
        ((blockList fr.width fr.height st.size).getD k (0, 0)).1
        ((blockList fr.width fr.height st.size).getD k (0, 0)).2 st.size := by
      rw [hxy]
      exact hmem
    constructor
    · apply runBlocks_Y_uncovered
      intro m hm hdm hmemm
      have hmemL : (blockList fr.width fr.height st.size).getD m (0, 0) ∈
          blockList fr.width fr.height st.size := by
        rw [List.getD_eq_getElem _ _ hm]
        exact List.getElem_mem _
      have hmemK : (blockList fr.width fr.height st.size).getD k (0, 0) ∈
          blockList fr.width fr.height st.size := by
        rw [List.getD_eq_getElem _ _ hk]
        exact List.getElem_mem _
      rw [mem_blockList] at hmemL hmemK
      obtain ⟨a, b, _, _, hab⟩ := hmemL
      obtain ⟨a', b', _, _, hab'⟩ := hmemK
      rw [hab] at hmemm
      rw [hab'] at hmem'
      have huniq := coords_origin_unique fr.width fr.height st.size hs
        a b a' b' j i hmemm hmem'
      have heq : (blockList fr.width fr.height st.size).getD m (0, 0) =
          (blockList fr.width fr.height st.size).getD k (0, 0) := by
        rw [hab, hab', huniq.1, huniq.2]
      have hnd := blockList_nodup fr.width fr.height st.size hs
      rw [List.getD_eq_getElem _ _ hm, List.getD_eq_getElem _ _ hk] at heq
      have hfin : (⟨m, hm⟩ : Fin (blockList fr.width fr.height
          st.size).length) = ⟨k, hk⟩ := by
        rw [← hnd.get_inj_iff]
        rw [List.get_eq_getElem, List.get_eq_getElem]
        exact heq
      have hmk : m = k := congrArg Fin.val hfin
      rw [hmk] at hdm
      have hdd : decisionAt st fr k = true := hdm
      rw [hd] at hdd
      exact Bool.false_ne_true hdd
    · intro hnex
      constructor
      · apply runBlocks_U_uncovered
        intro m hm hdm hmemm
        obtain ⟨⟨j', i'⟩, hj'i', hpair⟩ := List.mem_map.mp hmemm
        have hpair' : j' / 2 = j / 2 ∧ i' / 2 = i / 2 := by
          constructor
          · exact congrArg Prod.fst hpair
          · exact congrArg Prod.snd hpair
        exact hnex ⟨m, hm, hdm, j', i', hj'i', hpair'.1, hpair'.2⟩
      · apply runBlocks_V_uncovered
        intro m hm hdm hmemm
        obtain ⟨⟨j', i'⟩, hj'i', hpair⟩ := List.mem_map.mp hmemm
        have hpair' : j' / 2 = j / 2 ∧ i' / 2 = i / 2 := by
          constructor
          · exact congrArg Prod.fst hpair
          · exact congrArg Prod.snd hpair
        exact hnex ⟨m, hm, hdm, j', i', hj'i', hpair'.1, hpair'.2⟩

/-- Witness for C1 amended: in the C1 scenario block 0 is masked and its
top-left luma sample becomes 16. -/
theorem C1_blocks_witness :
    (1 ≤ (config_input 5 1 1 10 5).size ∧
      0 < (blockList frA.width frA.height
        (config_input 5 1 1 10 5).size).length) ∧
      (outFrame (config_input 5 1 1 10 5) frA).Y 0 0 = 16 :=
  ⟨⟨by decide, by decide⟩,
    ((C1_blocks (config_input 5 1 1 10 5) frA 0 0 0 (by decide) (by decide)
        (by decide)).1 (by decide) 0 0 (by decide)).1⟩

/-! ### Helper lemmas: block sums are stable under other blocks' masking when
the block size is even -/

/-- `fr` agrees with `fr₀` on every sample (luma and addressed chroma) that
the block with origin `p` reads. -/
def agreesOn (w h s : ℕ) (fr fr₀ : Frame) (p : ℕ × ℕ) : Prop :=
  ∀ j i, (j, i) ∈ blockCoords w h p.1 p.2 s →
    fr.Y j i = fr₀.Y j i ∧ fr.U (j / 2) (i / 2) = fr₀.U (j / 2) (i / 2) ∧
      fr.V (j / 2) (i / 2) = fr₀.V (j / 2) (i / 2)

theorem blockSum_congr (s w h : ℕ) (fr fr₀ : Frame) (p : ℕ × ℕ)
    (hw : fr.width = w) (hh : fr.height = h) (h0w : fr₀.width = w)
    (h0h : fr₀.height = h) (hag : agreesOn w h s fr fr₀ p) :
    blockSum fr p.1 p.2 s = blockSum fr₀ p.1 p.2 s := by
  rw [blockSum, blockSum, blockSumRaw, blockSumRaw, hw, hh, h0w, h0h]
  have hmap : (blockCoords w h p.1 p.2 s).map (fun ji =>
      (fr.Y ji.1 ji.2).val + (fr.U (ji.1 / 2) (ji.2 / 2)).val
        + (fr.V (ji.1 / 2) (ji.2 / 2)).val) =
      (blockCoords w h p.1 p.2 s).map (fun ji =>
      (fr₀.Y ji.1 ji.2).val + (fr₀.U (ji.1 / 2) (ji.2 / 2)).val
        + (fr₀.V (ji.1 / 2) (ji.2 / 2)).val) := by
    apply List.map_congr_left
    intro ji hji
    obtain ⟨j, i⟩ := ji
    have hvals := hag j i hji
    rw [hvals.1, hvals.2.1, hvals.2.2]
  rw [hmap]

theorem trace_sums_stable (s : ℕ) (thr : ℚ) (w h : ℕ) (fr₀ : Frame)
    (h0w : fr₀.width = w) (h0h : fr₀.height = h) :
    ∀ (L : List (ℕ × ℕ)) (fr : Frame) (slot : List ℕ) (rc : ℕ),
      fr.width = w → fr.height = h →
      (∀ p ∈ L, agreesOn w h s fr fr₀ p) →
      L.Pairwise (noTouch w h s) →
      ∀ k, k < L.length →
        ((runBlocks s thr L fr slot rc).2.2.getD k (0, 0)).1 =
          blockSum fr₀ (L.getD k (0, 0)).1 (L.getD k (0, 0)).2 s := by
  intro L
  induction L with
  | nil =>
    intro fr slot rc _ _ _ _ k hk
    simp at hk
  | cons p rest ih =>
    intro fr slot rc hw hh hag hpw k hk
    obtain ⟨x, y⟩ := p
    rw [runBlocks_cons]
    have hpw' := List.pairwise_cons.mp hpw
    cases k with
    | zero =>
      simp only [List.getD_cons_zero]
      exact blockSum_congr s w h fr fr₀ (x, y) hw hh h0w h0h
        (hag (x, y) (List.mem_cons_self ..))
    | succ k =>
      simp only [List.getD_cons_succ]
      cases hd : staticDecision s thr (blockSum fr x y s) (slot.getD rc 0) with
      | false =>
        rw [if_neg (by simp [hd])]
        exact ih fr _ _ hw hh (fun q hq => hag q (List.mem_cons_of_mem _ hq))
          hpw'.2 k (by simp only [List.length_cons] at hk; omega)
      | true =>
        rw [if_pos (by simp [hd])]
        refine ih (maskBlock fr x y s) _ _ (by rw [maskBlock_width, hw])
          (by rw [maskBlock_height, hh]) ?_ hpw'.2 k
          (by simp only [List.length_cons] at hk; omega)
        intro q hq j i hji
        have hnt : noTouch w h s (x, y) q := hpw'.1 q hq
        have hagq := hag q (List.mem_cons_of_mem _ hq) j i hji
        have hYnot : (j, i) ∉ blockCoords fr.width fr.height x y s := by
          rw [hw, hh]
          intro hmem
          rcases hnt j i hmem j i hji with hne | hne <;> exact hne rfl
        have hHnot : (j / 2, i / 2) ∉
            halfCoords fr.width fr.height x y s := by
          rw [hw, hh]
          intro hmem
          obtain ⟨⟨j', i'⟩, hj'i', hpair⟩ := List.mem_map.mp hmem
          rcases hnt j' i' hj'i' j i hji with hne | hne
          · exact hne (congrArg Prod.fst hpair)
          · exact hne (congrArg Prod.snd hpair)
        have hY : (maskBlock fr x y s).Y j i = fr.Y j i := by
          rw [maskBlock_Y, if_neg hYnot]
        have hU : (maskBlock fr x y s).U (j / 2) (i / 2) =
            fr.U (j / 2) (i / 2) := by
          rw [maskBlock_U, if_neg hHnot]
        have hV : (maskBlock fr x y s).V (j / 2) (i / 2) =
            fr.V (j / 2) (i / 2) := by
          rw [maskBlock_V, if_neg hHnot]
        rw [hY, hU, hV]
        exact hagq

theorem recordedSum_stable (s : ℕ) (thr : ℚ) (K : ℕ) (fr₀ : Frame) (n c : ℕ)
    (hs : 1 ≤ s) (heven : s % 2 = 0)
    (hc : c < (blockList fr₀.width fr₀.height s).length) :
    recordedSum s thr K fr₀.width fr₀.height (fun _ => fr₀) n c =
      blockSum fr₀
        ((blockList fr₀.width fr₀.height s).getD c (0, 0)).1
        ((blockList fr₀.width fr₀.height s).getD c (0, 0)).2 s := by
  rw [recordedSum, frameTrace, blockRun, runState_size, runState_threshold]
  exact trace_sums_stable s thr fr₀.width fr₀.height fr₀ rfl rfl
    (blockList fr₀.width fr₀.height s) fr₀ _ 0 rfl rfl
    (fun p _ j i _ => ⟨rfl, rfl, rfl⟩)
    (blockList_pairwise_noTouch fr₀.width fr₀.height s hs heven) c hc

theorem staticDecision_self (s : ℕ) (thr : ℚ) (a : ℕ) (hthr : 0 < thr) :
    staticDecision s thr a a = true := by
  have h0 : u64sub a a = 0 := by
    simp only [u64sub]
    omega
  simp only [staticDecision, cNorm, h0]
  have h1 : int32ofNat 0 = 0 := by simp [int32ofNat]
  rw [h1]
  have h2 : cIntAbs 0 = 0 := by simp [cIntAbs]
  rw [h2, Int.zero_tdiv]
  simp only [Int.cast_zero, decide_eq_true_eq]
  exact_mod_cast hthr

/-- The frame of the C7 counterexample: 10x5, luma 100 everywhere, chroma 0;
with block size 5 neither block is masked on the first call (sums are large
versus the zeroed ring), both would have delta 0 on the second. -/
def frB : Frame :=
  { width := 10, height := 5
    Y := fun _ _ => 100
    U := fun _ _ => 0
    V := fun _ _ => 0 }

/-- C7 counterexample: with lookback 1 and positive threshold 1, delivering
identical frame content on two consecutive calls does not mask every block
from the second call on.  On the second call block 0 is masked; its write
spills into the half-resolution chroma column it shares with block 1 (odd
block size 5), so block 1's sum moves away from the recorded one and block 1
stays unmasked. -/
theorem C7_counterexample :
    (0 : ℚ) < 1 ∧
    1 < (blockList frB.width frB.height 5).length ∧
    decisionAt (runState 5 1 1 frB.width frB.height (fun _ => frB) 1) frB 0 =
      true ∧
    decisionAt (runState 5 1 1 frB.width frB.height (fun _ => frB) 1) frB 1 =
      false :=
  ⟨by norm_num, by decide, by decide, by decide⟩

/-- C7 amended: if the same frame content is delivered on every call, the
threshold is positive, and the block size is even (so no chroma position is
shared between blocks), then from the `(lookback+1)`-th call onward — frame
indices `n ≥ K` — every block of the frame is classified static and masked:
its sum delta versus the sum recorded `lookback` frames earlier is 0, below
any positive threshold. -/
theorem C7_static_after_lookback (s : ℕ) (thr : ℚ) (K : ℕ) (fr₀ : Frame)
    (n c : ℕ) (hs : 1 ≤ s) (heven : s % 2 = 0) (hthr : 0 < thr) (hK : 1 ≤ K)
    (hn : K ≤ n) (hc : c < (blockList fr₀.width fr₀.height s).length) :
    decisionAt (runState s thr K fr₀.width fr₀.height (fun _ => fr₀) n)
      fr₀ c = true := by
  have hdec : decisionAt (runState s thr K fr₀.width fr₀.height
      (fun _ => fr₀) n) fr₀ c =
      staticDecision s thr
        (recordedSum s thr K fr₀.width fr₀.height (fun _ => fr₀) n c)
        (readValue s thr K fr₀.width fr₀.height (fun _ => fr₀) n c) := by
    rw [decisionAt, runState_size, runState_threshold]
    rfl
  rw [hdec, readValue_closed s thr K fr₀.width fr₀.height (fun _ => fr₀) n c
    hK (fun _ => ⟨rfl, rfl⟩) hc, if_neg (by omega),
    recordedSum_stable s thr K fr₀ n c hs heven hc,
    recordedSum_stable s thr K fr₀ (n - K) c hs heven hc]
  exact staticDecision_self s thr _ hthr

/-- Witness for C7 amended at a concrete even-size run (second call, block
0). -/
theorem C7_static_after_lookback_witness :
    ((1 : ℕ) ≤ 2 ∧ 2 % 2 = 0 ∧ (0 : ℚ) < 1 ∧ (1 : ℕ) ≤ 1 ∧
      0 < (blockList wFrame.width wFrame.height 2).length) ∧
      decisionAt (runState 2 1 1 wFrame.width wFrame.height
        (fun _ => wFrame) 1) wFrame 0 = true :=
  ⟨⟨by omega, by omega, by norm_num, by omega, by decide⟩,
    C7_static_after_lookback 2 1 1 wFrame 1 0 (by omega) (by omega)
      (by norm_num) (by omega) (by omega) (by decide)⟩

/-- C10: within a single call each block's aggregate sum is computed from the
frame state at the moment the block is visited.  In this scenario block 1's
recorded sum equals its block sum over the frame with block 0 already masked,
differs from its block sum over the original input frame, and block 0's
masking also changed a chroma sample addressed by block 1 at half-resolution
coordinates (pixel (0,5) of block 1 maps to chroma (0,2), which is shared
because the block size 5 is odd). -/
theorem C10_in_call_state :
    ((frameTrace (config_input 5 1 1 10 5) frA).getD 1 (0, 0)).1 =
      blockSum (maskBlock frA 0 0 5) 5 0 5 ∧
    ((frameTrace (config_input 5 1 1 10 5) frA).getD 1 (0, 0)).1 ≠
      blockSum frA 5 0 5 ∧
    (0, 5) ∈ blockCoords frA.width frA.height 5 0 5 ∧
    (outFrame (config_input 5 1 1 10 5) frA).U 0 2 ≠ frA.U 0 2 :=
  ⟨by decide, by decide, by decide, by decide⟩

end StaticMask
